import Mathlib

/-!
Verification of the core subsystems of the `ethpandaops/beacon` library:
the health hysteresis tracker, fork-epoch bookkeeping, the blob schedule,
finality change detection, the cached getters on the node facade, the
empty-slot detector, and the subscription ensurer.

Each definition is a shallow embedding of the corresponding Go function.
Go machine integers (`int`, `uint64`, `phase0.Epoch`, `phase0.Slot`) are
modelled as `Nat`: the only arithmetic performed on them is increment,
reset to zero and comparison, so overflow is unreachable in any run the
claims quantify over.  `time.Time` values are modelled as abstract `Nat`
timestamps supplied by the caller; errors are `Except String`.
-/

/-! ## Health (pkg/beacon/health.go)

The Go struct guards every operation with a mutex; operations are modelled
as pure state transformers, which captures all single-threaded executions
(the mutex makes every concurrent history equivalent to one of these).
-/

structure Health where
  healthy : Bool
  failures : Nat
  successes : Nat
  failThreshold : Nat
  successThreshold : Nat
  lastCheck : Nat
  failTotal : Nat
  successTotal : Nat
  deriving DecidableEq, Repr

/-- Mirrors `NewHealth(successThreshold, failThreshold int)`: all counters
start at zero and the Go zero value of `healthy` is `false`. -/
def NewHealth (successThreshold failThreshold : Nat) : Health :=
  { healthy := false
    failures := 0
    successes := 0
    failThreshold := failThreshold
    successThreshold := successThreshold
    lastCheck := 0
    failTotal := 0
    successTotal := 0 }

/-- Mirrors `(*Health).RecordFail`: bump `failTotal`, stamp `lastCheck`,
bump `failures`, reset `successes`, and clear `healthy` once
`failures >= failThreshold`.  The error argument is dropped by the source
as well (it is only observed by surrounding metrics). -/
def RecordFail (h : Health) (now : Nat) : Health :=
  { h with
    failTotal := h.failTotal + 1
    lastCheck := now
    failures := h.failures + 1
    successes := 0
    healthy := if h.failThreshold ≤ h.failures + 1 then false else h.healthy }

/-- Mirrors `(*Health).RecordSuccess`. -/
def RecordSuccess (h : Health) (now : Nat) : Health :=
  { h with
    successTotal := h.successTotal + 1
    lastCheck := now
    successes := h.successes + 1
    failures := 0
    healthy := if h.successThreshold ≤ h.successes + 1 then true else h.healthy }

/-- Mirrors `(*Health).Healthy`. -/
def Healthy (h : Health) : Bool := h.healthy

/-- Mirrors `(*Health).FailedTotal`. -/
def FailedTotal (h : Health) : Nat := h.failTotal

/-- Mirrors `(*Health).SuccessTotal`. -/
def SuccessTotal (h : Health) : Nat := h.successTotal

/-- One recorded outcome of a health check probe. -/
inductive Outcome where
  | success
  | failure
  deriving DecidableEq, Repr

/-- Applies one outcome to the tracker.  The wall-clock instant passed to
`lastCheck` is irrelevant to every claim, so the runs fix it at 0. -/
def healthStep (h : Health) : Outcome → Health
  | Outcome.success => RecordSuccess h 0
  | Outcome.failure => RecordFail h 0

/-- Applies a chronological sequence of outcomes. -/
def runHealth (h : Health) (tr : List Outcome) : Health :=
  tr.foldl healthStep h

/-- Length of the run of successes at the end of the trace, i.e. the
number of consecutive successes since the last failure. -/
def consecSuccesses (tr : List Outcome) : Nat :=
  (tr.reverse.takeWhile (fun o => decide (o = Outcome.success))).length

/-- Length of the run of failures at the end of the trace. -/
def consecFailures (tr : List Outcome) : Nat :=
  (tr.reverse.takeWhile (fun o => decide (o = Outcome.failure))).length

/-! ## Fork epochs (pkg/beacon/state, fork epoch file) -/

/-- Mirrors `spec.DataVersion` from go-eth2-client; `unknown` is the Go
zero value of the enum. -/
inductive DataVersion where
  | unknown
  | phase0
  | altair
  | bellatrix
  | capella
  | deneb
  | electra
  deriving DecidableEq, Repr

/-- Mirrors the package-level `ForkOrder` list: the canonical order of the
forks. -/
def ForkOrder : List DataVersion :=
  [DataVersion.phase0, DataVersion.altair, DataVersion.bellatrix,
   DataVersion.capella, DataVersion.deneb, DataVersion.electra]

/-- Mirrors `ForkEpoch`: a beacon fork that activates at a specific epoch. -/
structure ForkEpoch where
  epoch : Nat
  version : String
  name : DataVersion
  deriving DecidableEq, Repr

/-- Mirrors `(*ForkEpoch).Active`: `epoch >= f.Epoch`. -/
def ForkEpoch.Active (f : ForkEpoch) (epoch : Nat) : Bool :=
  decide (epoch ≥ f.epoch)

/-- Mirrors `(*ForkEpochs).IndexOf`: position of the name in `ForkOrder`,
`-1` when absent.  The Go method ignores its receiver. -/
def ForkEpochs.IndexOf (name : DataVersion) : Int :=
  match ForkOrder.findIdx? (fun v => decide (v = name)) with
  | some i => (i : Int)
  | none => -1

/-- Comparison used to model `sort.Slice(activated, IndexOf i < IndexOf j)`.
The Go sort leaves the order of entries with equal index unspecified; the
model determinises it with a stable insertion sort over this total
preorder, which is one of the permitted outcomes of the Go sort. -/
def forkLE (a b : ForkEpoch) : Prop :=
  ForkEpochs.IndexOf a.name ≤ ForkEpochs.IndexOf b.name

instance : DecidableRel forkLE := fun a b =>
  inferInstanceAs (Decidable (ForkEpochs.IndexOf a.name ≤ ForkEpochs.IndexOf b.name))

instance : IsTotal ForkEpoch forkLE :=
  ⟨fun a b => Int.le_total (ForkEpochs.IndexOf a.name) (ForkEpochs.IndexOf b.name)⟩

instance : IsTrans ForkEpoch forkLE :=
  ⟨fun _ _ _ hab hbc => le_trans hab hbc⟩

/-- Mirrors `(*ForkEpochs).Active`: the forks active at the epoch, sorted
by the canonical fork order. -/
def ForkEpochs.Active (f : List ForkEpoch) (epoch : Nat) : List ForkEpoch :=
  List.insertionSort forkLE (f.filter (fun fork => ForkEpoch.Active fork epoch))

/-- Mirrors `(*ForkEpochs).Scheduled`. -/
def ForkEpochs.Scheduled (f : List ForkEpoch) (epoch : Nat) : List ForkEpoch :=
  f.filter (fun fork => !(ForkEpoch.Active fork epoch))

/-- The Go zero value `&ForkEpoch{Epoch: 0}` seeding the fold in
`CurrentFork` and `PreviousFork`; its name and version are never
observable (the seed can only be returned on the error path, where it is
discarded). -/
def forkSeed : ForkEpoch := ⟨0, "", DataVersion.unknown⟩

/-- Loop body of `CurrentFork`: `if fork.Epoch >= largest.Epoch { found,
largest = true, fork }`, with the `found` flag in the first component. -/
def currentStep (acc : Bool × ForkEpoch) (fork : ForkEpoch) : Bool × ForkEpoch :=
  if acc.2.epoch ≤ fork.epoch then (true, fork) else acc

/-- Mirrors `(*ForkEpochs).CurrentFork`. -/
def ForkEpochs.CurrentFork (f : List ForkEpoch) (epoch : Nat) : Except String ForkEpoch :=
  let r := (ForkEpochs.Active f epoch).foldl currentStep (false, forkSeed)
  if r.1 then Except.ok r.2 else Except.error "no active fork"

/-- Loop body of `PreviousFork`: `fork.Active(epoch) && fork.Name !=
current.Name && fork.Epoch > largest.Epoch`. -/
def prevStep (epoch : Nat) (curName : DataVersion) (acc : Bool × ForkEpoch)
    (fork : ForkEpoch) : Bool × ForkEpoch :=
  if ForkEpoch.Active fork epoch && decide (fork.name ≠ curName)
      && decide (acc.2.epoch < fork.epoch) then
    (true, fork)
  else acc

/-- Mirrors `(*ForkEpochs).PreviousFork`. -/
def ForkEpochs.PreviousFork (f : List ForkEpoch) (epoch : Nat) : Except String ForkEpoch :=
  if f.length = 1 then ForkEpochs.CurrentFork f epoch
  else
    match ForkEpochs.CurrentFork f epoch with
    | Except.error e => Except.error e
    | Except.ok current =>
      let r := (ForkEpochs.Active f epoch).foldl (prevStep epoch current.name) (false, forkSeed)
      if r.1 then Except.ok r.2 else Except.error "no previous fork"

/-- The fork list of the spec scenario: a non-phase0 genesis with deneb
scheduled at epoch 1000. -/
def exampleForkEpochs : List ForkEpoch :=
  [⟨0, "", DataVersion.phase0⟩, ⟨0, "", DataVersion.altair⟩,
   ⟨0, "", DataVersion.bellatrix⟩, ⟨0, "", DataVersion.capella⟩,
   ⟨1000, "", DataVersion.deneb⟩]

/-- Fork list on which the claimed `PreviousFork` behaviour fails: the only
differing-name active fork (phase0) activates at epoch 0. -/
def prevCounterexampleForks : List ForkEpoch :=
  [⟨0, "", DataVersion.phase0⟩, ⟨5, "", DataVersion.altair⟩]

/-- Fork list with a positive-epoch previous fork, used to instantiate the
amended `PreviousFork` behaviour. -/
def prevWitnessForks : List ForkEpoch :=
  [⟨0, "", DataVersion.phase0⟩, ⟨5, "", DataVersion.altair⟩,
   ⟨9, "", DataVersion.bellatrix⟩]

/-! ## Blob schedule (pkg/beacon/state/blob_schedule.go) -/

/-- Mirrors `BlobScheduleEntry`. -/
structure BlobScheduleEntry where
  epoch : Nat
  maxBlobsPerBlock : Nat
  deriving DecidableEq, Repr

/-- Comparison used to model `sort.Slice(sorted, Epoch i > Epoch j)`
(descending by epoch); determinised by a stable insertion sort over this
total preorder, one of the permitted outcomes of the Go sort. -/
def blobDesc (a b : BlobScheduleEntry) : Prop :=
  b.epoch ≤ a.epoch

instance : DecidableRel blobDesc := fun a b =>
  inferInstanceAs (Decidable (b.epoch ≤ a.epoch))

instance : IsTotal BlobScheduleEntry blobDesc :=
  ⟨fun a b => Nat.le_total b.epoch a.epoch⟩

instance : IsTrans BlobScheduleEntry blobDesc :=
  ⟨fun _ _ _ hab hbc => Nat.le_trans hbc hab⟩

/-- Loop body of the minimum fallback in `GetMaxBlobsPerBlock`. -/
def blobMinStep (m : Nat) (entry : BlobScheduleEntry) : Nat :=
  if entry.maxBlobsPerBlock < m then entry.maxBlobsPerBlock else m

/-- Mirrors `(BlobSchedule).GetMaxBlobsPerBlock`: empty schedule gives 0;
otherwise sort a copy descending by epoch, return the first entry with
`epoch >= entry.Epoch`, and fall back to the minimum `MaxBlobsPerBlock`
over all entries. -/
def GetMaxBlobsPerBlock (bs : List BlobScheduleEntry) (epoch : Nat) : Nat :=
  if bs.isEmpty then 0
  else
    let sorted := List.insertionSort blobDesc bs
    match sorted.find? (fun entry => decide (epoch ≥ entry.epoch)) with
    | some entry => entry.maxBlobsPerBlock
    | none => sorted.foldl blobMinStep (sorted.headD ⟨0, 0⟩).maxBlobsPerBlock

/-- Mirrors `GetMaxBlobsPerBlock` while also tracking the final contents of
the receiver slice.  In Go the receiver `bs` shares its backing array with
the caller; the method allocates a fresh array (`make` + `copy`) into
`sorted`, sorts only that copy, and performs no write through `bs`, so the
second component records what the caller's slice holds after the call. -/
def GetMaxBlobsPerBlockCall (bs : List BlobScheduleEntry) (epoch : Nat) :
    Nat × List BlobScheduleEntry :=
  if bs.isEmpty then (0, bs)
  else
    let receiver := bs
    let sorted := receiver
    let sorted := List.insertionSort blobDesc sorted
    match sorted.find? (fun entry => decide (epoch ≥ entry.epoch)) with
    | some entry => (entry.maxBlobsPerBlock, receiver)
    | none => (sorted.foldl blobMinStep (sorted.headD ⟨0, 0⟩).maxBlobsPerBlock, receiver)

/-- The schedule of the spec scenario. -/
def exampleBlobSchedule : List BlobScheduleEntry :=
  [⟨512, 12⟩, ⟨768, 15⟩, ⟨1024, 18⟩, ⟨1280, 9⟩, ⟨1584, 20⟩]

/-! ## Finality change detection (pkg/beacon/fetch.go, FetchFinality) -/

/-- An `(epoch, root)` pair; the 32-byte root is modelled as a `Nat`. -/
structure Checkpoint where
  epoch : Nat
  root : Nat
  deriving DecidableEq, Repr

/-- Mirrors `v1.Finality`: previous-justified, justified and finalized
checkpoints. -/
structure Finality where
  previousJustified : Checkpoint
  justified : Checkpoint
  finalized : Checkpoint
  deriving DecidableEq, Repr

/-- The field-wise comparison in `FetchFinality`, in source order. -/
def finalityDiffers (old new : Finality) : Bool :=
  decide (new.finalized.root ≠ old.finalized.root)
    || decide (new.finalized.epoch ≠ old.finalized.epoch)
    || decide (new.justified.root ≠ old.justified.root)
    || decide (new.justified.epoch ≠ old.justified.epoch)
    || decide (new.previousJustified.epoch ≠ old.previousJustified.epoch)
    || decide (new.previousJustified.root ≠ old.previousJustified.root)

/-- Mirrors the cache/emit half of `FetchFinality` after the upstream call
succeeded with `rsp`: when `stateID == "head"`, `changed` is set when the
cache is nil or any checkpoint field differs, the cache is overwritten,
and `finality_checkpoint_updated` is published when `changed`.  Returns
the new cache and the list of published event payloads. -/
def FetchFinality (cache : Option Finality) (stateID : String) (rsp : Finality) :
    Option Finality × List Finality :=
  if stateID = "head" then
    let changed : Bool :=
      match cache with
      | none => true
      | some old => finalityDiffers old rsp
    (some rsp, if changed then [rsp] else [])
  else (cache, [])

/-- Runs a sequence of successful `FetchFinality` calls, accumulating every
published `finality_checkpoint_updated` payload. -/
def runFinalityCalls (cache : Option Finality) (calls : List (String × Finality)) :
    Option Finality × List Finality :=
  calls.foldl
    (fun acc call =>
      let r := FetchFinality acc.1 call.1 call.2
      (r.1, acc.2 ++ r.2))
    (cache, [])

/-- First upstream answer of the spec scenario: finalized `(100, 0xAA)`. -/
def finalityA : Finality :=
  ⟨⟨98, 1⟩, ⟨99, 2⟩, ⟨100, 0xAA⟩⟩

/-- Second upstream answer of the spec scenario: finalized `(101, 0xBB)`. -/
def finalityB : Finality :=
  ⟨⟨98, 1⟩, ⟨99, 2⟩, ⟨101, 0xBB⟩⟩

/-! ## Cached getters on the node facade -/

/-- The semantic part of `state.Spec` the claims touch. -/
structure SpecData where
  slotsPerEpoch : Nat
  secondsPerSlot : Nat
  forkEpochs : List ForkEpoch
  blobSchedule : List BlobScheduleEntry
  deriving DecidableEq, Repr

/-- Mirrors `v1.SyncState`. -/
structure SyncState where
  headSlot : Nat
  syncDistance : Nat
  isSyncing : Bool
  isOptimistic : Bool
  deriving DecidableEq, Repr

/-- Mirrors `v1.Genesis` (only the field the core reads). -/
structure Genesis where
  genesisTime : Nat
  deriving DecidableEq, Repr

/-- The cache slots of the node facade read by the cached getters.  Go nil
pointers are `none`; the node-version slot is a plain Go string whose
never-populated state is the zero value `""`.  The sync-state slot lives
inside the `Status` wrapper in the source; the wrapper adds no logic
beyond locking, so the slot is inlined here. -/
structure NodeState where
  spec : Option SpecData
  syncState : Option SyncState
  genesis : Option Genesis
  nodeVersion : String
  finality : Option Finality
  deriving DecidableEq, Repr

/-- Mirrors the `Spec()` getter. -/
def Node.Spec (n : NodeState) : Except String SpecData :=
  match n.spec with
  | none => Except.error "spec is not available"
  | some s => Except.ok s

/-- Mirrors the `SyncState()` getter. -/
def Node.SyncState (n : NodeState) : Except String SyncState :=
  match n.syncState with
  | none => Except.error "sync state not available"
  | some s => Except.ok s

/-- Mirrors the `Genesis()` getter: the raw (possibly nil) pointer is
returned with a nil error unconditionally. -/
def Node.Genesis (n : NodeState) : Except String (Option Genesis) :=
  Except.ok n.genesis

/-- Mirrors the `NodeVersion()` getter: the cached string is returned with
a nil error unconditionally. -/
def Node.NodeVersion (n : NodeState) : Except String String :=
  Except.ok n.nodeVersion

/-- Mirrors the `Finality()` getter. -/
def Node.Finality (n : NodeState) : Except String Finality :=
  match n.finality with
  | none => Except.error "finality not available"
  | some s => Except.ok s

/-- A node fresh out of construction: every cache slot still holds its Go
zero value. -/
def freshNode : NodeState :=
  { spec := none
    syncState := none
    genesis := none
    nodeVersion := ""
    finality := none }

/-! ## Empty-slot detection (node file: OnSlotChanged reactor and getBlock) -/

/-- Outcome of the upstream `SignedBeaconBlock` call: a block, a typed
`*api.Error` carrying an HTTP status code and its rendered message, or any
other error. -/
inductive BlockRsp where
  | block (id : Nat)
  | apiError (statusCode : Nat) (message : String)
  | otherError (message : String)
  deriving DecidableEq, Repr

/-- Mirrors `getBlock`: a typed 404 is translated to a nil block with a nil
error, a typed 503 becomes a syncing error, every other error passes
through unchanged. -/
def getBlock (rsp : BlockRsp) : Except String (Option Nat) :=
  match rsp with
  | BlockRsp.block b => Except.ok (some b)
  | BlockRsp.apiError statusCode message =>
    if statusCode = 404 then Except.ok none
    else if statusCode = 503 then Except.error "beacon node is syncing"
    else Except.error message
  | BlockRsp.otherError message => Except.error message

/-- Mirrors `FetchBlock`, which delegates to `getBlock`. -/
def FetchBlock (rsp : BlockRsp) : Except String (Option Nat) :=
  getBlock rsp

/-- Mirrors `BeaconSubscriptionOptions`. -/
structure BeaconSubscriptionOptions where
  enabled : Bool
  topics : List String
  deriving DecidableEq, Repr

/-- Mirrors the fields of `Options` the claims touch. -/
structure Options where
  beaconSubscription : BeaconSubscriptionOptions
  detectEmptySlots : Bool
  deriving DecidableEq, Repr

/-- Mirrors `EmptySlotEvent`, the payload of the `slot_empty` topic. -/
structure EmptySlotEvent where
  slot : Nat
  deriving DecidableEq, Repr

/-- True when the character list begins with `4`, `0`, `4`. -/
def starts404 : List Char → Bool
  | '4' :: '0' :: '4' :: _ => true
  | _ => false

/-- Substring search for `404` over a character list. -/
def contains404Chars : List Char → Bool
  | [] => false
  | c :: rest => starts404 (c :: rest) || contains404Chars rest

/-- Mirrors `strings.Contains(s, "404")`. -/
def contains404 (s : String) : Bool :=
  contains404Chars s.data

/-- Mirrors the `OnSlotChanged` reactor wired in `subscribeDownstream`:
skip when detection is disabled or the node is syncing; otherwise fetch
the block at `slot-1` through `FetchBlock`, and publish `slot_empty` for
the current slot only when that returns an error whose text contains
"404".  Returns the list of published `slot_empty` payloads. -/
def onSlotChanged (o : Options) (syncing : Bool) (slot : Nat)
    (upstream : Nat → BlockRsp) : List EmptySlotEvent :=
  if !o.detectEmptySlots then []
  else if syncing then []
  else
    match FetchBlock (upstream (slot - 1)) with
    | Except.error e => if contains404 e then [⟨slot⟩] else []
    | Except.ok _ => []

/-- Options of the empty-slot scenario: detection on. -/
def detectingOptions : Options :=
  { beaconSubscription := { enabled := false, topics := [] }
    detectEmptySlots := true }

/-- Options with the beacon subscription feature off although topics are
configured. -/
def disabledOptions : Options :=
  { beaconSubscription := { enabled := false, topics := ["head", "block"] }
    detectEmptySlots := false }

/-! ## Subscription ensurer (pkg/beacon/subscriptions.go) -/

/-- One 2-second tick of `ensureBeaconSubscription`: `true` when this tick
reaches the `subscribeToBeaconEvents` call, i.e. the topics list is
non-empty, the client is present and the subscription feature is enabled
(checked in source order). -/
def tickAttemptsSubscribe (o : Options) (clientPresent : Bool) : Bool :=
  if o.beaconSubscription.topics.isEmpty then false
  else if !clientPresent then false
  else if !o.beaconSubscription.enabled then false
  else true

/-- Runs `n` ticks of the ensurer loop.  `subOk t` tells whether the
subscription attempt at tick `t` succeeds (on success the loop returns).
The result is the list of tick indices at which `subscribeToBeaconEvents`
was invoked, together with whether the loop has returned. -/
def ensureRun (o : Options) (clientPresent : Bool) (subOk : Nat → Bool) :
    Nat → List Nat × Bool
  | 0 => ([], false)
  | n + 1 =>
    let r := ensureRun o clientPresent subOk n
    if r.2 then r
    else if tickAttemptsSubscribe o clientPresent then (r.1 ++ [n], subOk n)
    else (r.1, false)

/-! ## Helper lemmas: health -/

lemma runHealth_append (h : Health) (tr : List Outcome) (o : Outcome) :
    runHealth h (tr ++ [o]) = healthStep (runHealth h tr) o := by
  simp [runHealth, List.foldl_append]

lemma consecSuccesses_append_success (tr : List Outcome) :
    consecSuccesses (tr ++ [Outcome.success]) = consecSuccesses tr + 1 := by
  simp [consecSuccesses, List.reverse_append]

lemma consecSuccesses_append_failure (tr : List Outcome) :
    consecSuccesses (tr ++ [Outcome.failure]) = 0 := by
  simp [consecSuccesses, List.reverse_append]

lemma consecFailures_append_failure (tr : List Outcome) :
    consecFailures (tr ++ [Outcome.failure]) = consecFailures tr + 1 := by
  simp [consecFailures, List.reverse_append]

lemma consecFailures_append_success (tr : List Outcome) :
    consecFailures (tr ++ [Outcome.success]) = 0 := by
  simp [consecFailures, List.reverse_append]

lemma health_counters (st ft : Nat) (tr : List Outcome) :
    (runHealth (NewHealth st ft) tr).successes = consecSuccesses tr ∧
    (runHealth (NewHealth st ft) tr).failures = consecFailures tr ∧
    (runHealth (NewHealth st ft) tr).successThreshold = st ∧
    (runHealth (NewHealth st ft) tr).failThreshold = ft := by
  induction tr using List.reverseRecOn with
  | nil =>
    simp [runHealth, NewHealth, consecSuccesses, consecFailures]
  | append_singleton l o ih =>
    rcases o with _ | _ <;>
      simp [runHealth_append, healthStep, RecordSuccess, RecordFail,
        consecSuccesses_append_success, consecFailures_append_success,
        consecSuccesses_append_failure, consecFailures_append_failure, ih.1, ih.2.1,
        ih.2.2.1, ih.2.2.2]

lemma consec_one_zero (tr : List Outcome) :
    consecSuccesses tr = 0 ∨ consecFailures tr = 0 := by
  unfold consecSuccesses consecFailures
  cases h : tr.reverse with
  | nil => simp
  | cons o rest => rcases o with _ | _ <;> simp

lemma runHealth_totals_mono (tr : List Outcome) (h : Health) :
    h.failTotal ≤ (runHealth h tr).failTotal ∧
    h.successTotal ≤ (runHealth h tr).successTotal := by
  induction tr generalizing h with
  | nil => exact ⟨le_refl _, le_refl _⟩
  | cons o rest ih =>
    have hstep : h.failTotal ≤ (healthStep h o).failTotal ∧
        h.successTotal ≤ (healthStep h o).successTotal := by
      rcases o with _ | _ <;>
        exact ⟨by simp [healthStep, RecordSuccess, RecordFail],
          by simp [healthStep, RecordSuccess, RecordFail]⟩
    have := ih (healthStep h o)
    exact ⟨le_trans hstep.1 (by simpa [runHealth] using this.1),
      le_trans hstep.2 (by simpa [runHealth] using this.2)⟩

lemma runHealth_totals_sum (tr : List Outcome) (h : Health) :
    (runHealth h tr).failTotal + (runHealth h tr).successTotal =
      h.failTotal + h.successTotal + tr.length := by
  induction tr generalizing h with
  | nil => simp [runHealth]
  | cons o rest ih =>
    have := ih (healthStep h o)
    rcases o with _ | _ <;>
      simp only [runHealth, List.foldl_cons, List.length_cons] at this ⊢ <;>
      rw [this] <;> simp [healthStep, RecordSuccess, RecordFail] <;> omega

/-! ## C3 and C4 -/

/-- C3: with thresholds `succ = 3`, `fail = 2`, the trace S S S turns
`Healthy()` true, F F turns it false, S S leaves it false, one more S
turns it true again, and afterwards `SuccessTotal() = 6` and
`FailedTotal() = 2`; in general, a `RecordSuccess` leaves `healthy` true
exactly when the consecutive successes since the last failure have
reached `successThreshold` or it was already true, and symmetrically a
`RecordFail` leaves it false exactly when the consecutive failures have
reached `failThreshold` or it was already false. -/
theorem health_hysteresis :
    (Healthy (runHealth (NewHealth 3 2)
        [Outcome.success, Outcome.success, Outcome.success]) = true
      ∧ Healthy (runHealth (NewHealth 3 2)
        [Outcome.success, Outcome.success, Outcome.success,
         Outcome.failure, Outcome.failure]) = false
      ∧ Healthy (runHealth (NewHealth 3 2)
        [Outcome.success, Outcome.success, Outcome.success,
         Outcome.failure, Outcome.failure, Outcome.success, Outcome.success]) = false
      ∧ Healthy (runHealth (NewHealth 3 2)
        [Outcome.success, Outcome.success, Outcome.success,
         Outcome.failure, Outcome.failure, Outcome.success, Outcome.success,
         Outcome.success]) = true
      ∧ SuccessTotal (runHealth (NewHealth 3 2)
        [Outcome.success, Outcome.success, Outcome.success,
         Outcome.failure, Outcome.failure, Outcome.success, Outcome.success,
         Outcome.success]) = 6
      ∧ FailedTotal (runHealth (NewHealth 3 2)
        [Outcome.success, Outcome.success, Outcome.success,
         Outcome.failure, Outcome.failure, Outcome.success, Outcome.success,
         Outcome.success]) = 2)
    ∧ (∀ (st ft : Nat) (tr : List Outcome),
        (Healthy (healthStep (runHealth (NewHealth st ft) tr) Outcome.success) = true
          ↔ st ≤ consecSuccesses (tr ++ [Outcome.success])
            ∨ Healthy (runHealth (NewHealth st ft) tr) = true)
        ∧ (Healthy (healthStep (runHealth (NewHealth st ft) tr) Outcome.failure) = false
          ↔ ft ≤ consecFailures (tr ++ [Outcome.failure])
            ∨ Healthy (runHealth (NewHealth st ft) tr) = false)) := by
  constructor
  · exact ⟨by decide, by decide, by decide, by decide, by decide, by decide⟩
  · intro st ft tr
    obtain ⟨hs, hf, hst, hft⟩ := health_counters st ft tr
    rw [consecSuccesses_append_success, consecFailures_append_failure]
    generalize hH : runHealth (NewHealth st ft) tr = H at hs hf hst hft ⊢
    constructor
    · rw [← hs, ← hst]
      simp only [Healthy, healthStep, RecordSuccess]
      by_cases hc : H.successThreshold ≤ H.successes + 1 <;> simp [hc]
    · rw [← hf, ← hft]
      simp only [Healthy, healthStep, RecordFail]
      by_cases hc : H.failThreshold ≤ H.failures + 1 <;> simp [hc]

/-- C3 witness: the general hysteresis characterisation instantiated at
thresholds 3, 2 and the empty prior trace. -/
theorem health_hysteresis_witness :
    (Healthy (healthStep (runHealth (NewHealth 3 2) []) Outcome.success) = true
      ↔ 3 ≤ consecSuccesses ([] ++ [Outcome.success])
        ∨ Healthy (runHealth (NewHealth 3 2) []) = true) :=
  (health_hysteresis.2 3 2 []).1

/-- C4: over every finite trace from a fresh tracker, (a) at least one of
the consecutive counters is zero after every prefix, (b) `healthy` starts
out false, and (c) both totals are monotone along the trace and their sum
equals the number of recorded outcomes. -/
theorem health_invariants (st ft : Nat) (tr ext : List Outcome) :
    ((runHealth (NewHealth st ft) tr).failures = 0
      ∨ (runHealth (NewHealth st ft) tr).successes = 0)
    ∧ (NewHealth st ft).healthy = false
    ∧ (runHealth (NewHealth st ft) tr).failTotal ≤
        (runHealth (NewHealth st ft) (tr ++ ext)).failTotal
    ∧ (runHealth (NewHealth st ft) tr).successTotal ≤
        (runHealth (NewHealth st ft) (tr ++ ext)).successTotal
    ∧ (runHealth (NewHealth st ft) tr).failTotal
        + (runHealth (NewHealth st ft) tr).successTotal = tr.length := by
  obtain ⟨hs, hf, _, _⟩ := health_counters st ft tr
  have happ : runHealth (NewHealth st ft) (tr ++ ext)
      = runHealth (runHealth (NewHealth st ft) tr) ext := by
    simp [runHealth, List.foldl_append]
  have hmono := runHealth_totals_mono ext (runHealth (NewHealth st ft) tr)
  have hsum := runHealth_totals_sum tr (NewHealth st ft)
  refine ⟨?_, rfl, ?_, ?_, ?_⟩
  · rcases consec_one_zero tr with h | h
    · exact Or.inr (hs.trans h)
    · exact Or.inl (hf.trans h)
  · rw [happ]; exact hmono.1
  · rw [happ]; exact hmono.2
  · simpa [NewHealth] using hsum

/-! ## Helper lemmas: fork epochs -/

lemma forkLE_refl (a : ForkEpoch) : forkLE a a := by
  unfold forkLE; exact le_refl _

lemma forkLE_trans {a b c : ForkEpoch} (h1 : forkLE a b) (h2 : forkLE b c) :
    forkLE a c := by
  unfold forkLE at *; exact le_trans h1 h2

lemma forkLE_seed (g : ForkEpoch) : forkLE forkSeed g := by
  show ForkEpochs.IndexOf DataVersion.unknown ≤ ForkEpochs.IndexOf g.name
  cases g.name <;> decide

lemma mem_Active (f : List ForkEpoch) (e : Nat) (g : ForkEpoch) :
    g ∈ ForkEpochs.Active f e ↔ g ∈ f ∧ g.epoch ≤ e := by
  unfold ForkEpochs.Active
  rw [List.mem_insertionSort, List.mem_filter]
  simp [ForkEpoch.Active]

lemma active_of_mem_Active (f : List ForkEpoch) (e : Nat) (g : ForkEpoch)
    (hg : g ∈ ForkEpochs.Active f e) : ForkEpoch.Active g e = true := by
  have h := (mem_Active f e g).mp hg
  simp [ForkEpoch.Active]
  exact h.2

lemma sorted_Active (f : List ForkEpoch) (e : Nat) :
    List.Sorted forkLE (ForkEpochs.Active f e) :=
  List.sorted_insertionSort forkLE _

lemma currentFold_flag (l : List ForkEpoch) (a : ForkEpoch) :
    (l.foldl currentStep (true, a)).1 = true := by
  induction l generalizing a with
  | nil => rfl
  | cons h t ih =>
    simp only [List.foldl_cons, currentStep]
    by_cases hcond : a.epoch ≤ h.epoch
    · rw [if_pos hcond]; exact ih h
    · rw [if_neg hcond]; exact ih a

lemma currentFold_props (l : List ForkEpoch) (b : Bool) (a : ForkEpoch)
    (hs : List.Sorted forkLE l) (ha : ∀ g ∈ l, forkLE a g) :
    (l.foldl currentStep (b, a) = (b, a)
       ∨ ((l.foldl currentStep (b, a)).1 = true ∧ (l.foldl currentStep (b, a)).2 ∈ l))
    ∧ a.epoch ≤ (l.foldl currentStep (b, a)).2.epoch
    ∧ (∀ g ∈ l, g.epoch ≤ (l.foldl currentStep (b, a)).2.epoch)
    ∧ forkLE a (l.foldl currentStep (b, a)).2
    ∧ (∀ g ∈ l, g.epoch = (l.foldl currentStep (b, a)).2.epoch →
        forkLE g (l.foldl currentStep (b, a)).2) := by
  induction l generalizing b a with
  | nil =>
    refine ⟨Or.inl rfl, le_refl _, by simp, forkLE_refl a, by simp⟩
  | cons h t ih =>
    obtain ⟨hh, hts⟩ := List.sorted_cons.mp hs
    have hah : forkLE a h := ha h (List.mem_cons_self h t)
    by_cases hcond : a.epoch ≤ h.epoch
    · have hstep : (h :: t).foldl currentStep (b, a) = t.foldl currentStep (true, h) := by
        simp only [List.foldl_cons, currentStep, if_pos hcond]
      obtain ⟨iA, iB, iC, iD, iE⟩ := ih true h hts hh
      rw [hstep]
      refine ⟨?_, le_trans hcond iB, ?_, forkLE_trans hah iD, ?_⟩
      · rcases iA with heq | ⟨hfl, hmem⟩
        · exact Or.inr ⟨by rw [heq], by rw [heq]; exact List.mem_cons_self h t⟩
        · exact Or.inr ⟨hfl, List.mem_cons_of_mem h hmem⟩
      · intro g hg
        rcases List.mem_cons.mp hg with rfl | hgt
        · exact iB
        · exact iC g hgt
      · intro g hg heq
        rcases List.mem_cons.mp hg with rfl | hgt
        · exact iD
        · exact iE g hgt heq
    · have hstep : (h :: t).foldl currentStep (b, a) = t.foldl currentStep (b, a) := by
        simp only [List.foldl_cons, currentStep, if_neg hcond]
      obtain ⟨iA, iB, iC, iD, iE⟩ :=
        ih b a hts (fun g hg => ha g (List.mem_cons_of_mem h hg))
      rw [hstep]
      have hlt : h.epoch < a.epoch := Nat.lt_of_not_le hcond
      refine ⟨?_, iB, ?_, iD, ?_⟩
      · rcases iA with heq | ⟨hfl, hmem⟩
        · exact Or.inl heq
        · exact Or.inr ⟨hfl, List.mem_cons_of_mem h hmem⟩
      · intro g hg
        rcases List.mem_cons.mp hg with rfl | hgt
        · exact le_of_lt (lt_of_lt_of_le hlt iB)
        · exact iC g hgt
      · intro g hg heq
        rcases List.mem_cons.mp hg with rfl | hgt
        · exact absurd heq (Nat.ne_of_lt (lt_of_lt_of_le hlt iB))
        · exact iE g hgt heq

lemma prevFold_props (e : Nat) (cn : DataVersion) (l : List ForkEpoch)
    (b : Bool) (a : ForkEpoch) :
    (l.foldl (prevStep e cn) (b, a) = (b, a)
       ∨ ((l.foldl (prevStep e cn) (b, a)).1 = true
           ∧ (l.foldl (prevStep e cn) (b, a)).2 ∈ l
           ∧ ForkEpoch.Active (l.foldl (prevStep e cn) (b, a)).2 e = true
           ∧ (l.foldl (prevStep e cn) (b, a)).2.name ≠ cn
           ∧ a.epoch < (l.foldl (prevStep e cn) (b, a)).2.epoch))
    ∧ a.epoch ≤ (l.foldl (prevStep e cn) (b, a)).2.epoch
    ∧ (∀ g ∈ l, ForkEpoch.Active g e = true → g.name ≠ cn →
        g.epoch ≤ (l.foldl (prevStep e cn) (b, a)).2.epoch) := by
  induction l generalizing b a with
  | nil => exact ⟨Or.inl rfl, le_refl _, by simp⟩
  | cons h t ih =>
    by_cases hcond : (ForkEpoch.Active h e && decide (h.name ≠ cn)
        && decide (a.epoch < h.epoch)) = true
    · obtain ⟨⟨hA, hN⟩, hE⟩ : (ForkEpoch.Active h e = true ∧ h.name ≠ cn)
          ∧ a.epoch < h.epoch := by
        simp only [Bool.and_eq_true, decide_eq_true_eq] at hcond
        exact ⟨⟨hcond.1.1, hcond.1.2⟩, hcond.2⟩
      have hstep : (h :: t).foldl (prevStep e cn) (b, a)
          = t.foldl (prevStep e cn) (true, h) := by
        simp only [List.foldl_cons, prevStep, if_pos hcond]
      obtain ⟨iA, iB, iC⟩ := ih true h
      rw [hstep]
      refine ⟨?_, le_trans (le_of_lt hE) iB, ?_⟩
      · rcases iA with heq | ⟨hfl, hmem, hact, hname, hlt⟩
        · exact Or.inr ⟨by rw [heq], by rw [heq]; exact List.mem_cons_self h t,
            by rw [heq]; exact hA, by rw [heq]; exact hN, by rw [heq]; exact hE⟩
        · exact Or.inr ⟨hfl, List.mem_cons_of_mem h hmem, hact, hname,
            lt_of_lt_of_le hE iB⟩
      · intro g hg hga hgn
        rcases List.mem_cons.mp hg with rfl | hgt
        · exact iB
        · exact iC g hgt hga hgn
    · have hstep : (h :: t).foldl (prevStep e cn) (b, a)
          = t.foldl (prevStep e cn) (b, a) := by
        simp only [List.foldl_cons, prevStep, if_neg hcond]
      obtain ⟨iA, iB, iC⟩ := ih b a
      rw [hstep]
      refine ⟨?_, iB, ?_⟩
      · rcases iA with heq | ⟨hfl, hmem, hact, hname, hlt⟩
        · exact Or.inl heq
        · exact Or.inr ⟨hfl, List.mem_cons_of_mem h hmem, hact, hname, hlt⟩
      · intro g hg hga hgn
        rcases List.mem_cons.mp hg with rfl | hgt
        · have hnle : ¬ a.epoch < g.epoch := by
            intro hlt
            exact hcond (by simp [hga, hgn, hlt])
          exact le_trans (Nat.le_of_not_lt hnle) iB
        · exact iC g hgt hga hgn

/-! ## C5 -/

/-- C5: whenever some fork is active at epoch `e`, `CurrentFork e` returns
a member of `Active e` whose epoch is the maximum epoch among the active
forks, and no equal-epoch active fork comes later in the canonical fork
order; concretely, for the non-phase0-genesis list with deneb at epoch
1000, querying epoch 100 yields capella. -/
theorem CurrentFork_spec (f : List ForkEpoch) (e : Nat)
    (h : ∃ g ∈ f, g.epoch ≤ e) :
    (∃ fk, ForkEpochs.CurrentFork f e = Except.ok fk
      ∧ fk ∈ ForkEpochs.Active f e
      ∧ (∀ g ∈ ForkEpochs.Active f e, g.epoch ≤ fk.epoch)
      ∧ (∀ g ∈ ForkEpochs.Active f e, g.epoch = fk.epoch → forkLE g fk))
    ∧ ForkEpochs.CurrentFork exampleForkEpochs 100
        = Except.ok ⟨0, "", DataVersion.capella⟩ := by
  refine ⟨?_, rfl⟩
  obtain ⟨g, hgf, hge⟩ := h
  have hmem : g ∈ ForkEpochs.Active f e := (mem_Active f e g).mpr ⟨hgf, hge⟩
  obtain ⟨h0, t0, hact⟩ := List.exists_cons_of_ne_nil (List.ne_nil_of_mem hmem)
  have hprops := currentFold_props (ForkEpochs.Active f e) false forkSeed
    (sorted_Active f e) (fun g' _ => forkLE_seed g')
  have hflag : ((ForkEpochs.Active f e).foldl currentStep (false, forkSeed)).1 = true := by
    rw [hact]
    simp only [List.foldl_cons, currentStep]
    rw [if_pos (show forkSeed.epoch ≤ h0.epoch from Nat.zero_le _)]
    exact currentFold_flag t0 h0
  have hcf : ForkEpochs.CurrentFork f e
      = Except.ok ((ForkEpochs.Active f e).foldl currentStep (false, forkSeed)).2 := by
    unfold ForkEpochs.CurrentFork
    simp only [hflag, if_true]
  refine ⟨_, hcf, ?_, hprops.2.2.1, hprops.2.2.2.2⟩
  rcases hprops.1 with heq | ⟨_, hmem'⟩
  · rw [heq] at hflag
    exact absurd hflag (by simp)
  · exact hmem'

/-- C5 witness: the theorem instantiated at the scenario fork list and
epoch 100. -/
theorem CurrentFork_spec_witness :
    ForkEpochs.CurrentFork exampleForkEpochs 100
      = Except.ok ⟨0, "", DataVersion.capella⟩ :=
  (CurrentFork_spec exampleForkEpochs 100 (by decide)).2

/-! ## C7 -/

/-- C7 counterexample: on `[(phase0, 0), (altair, 5)]` at epoch 5 the
current fork is altair and phase0 is an active fork of a differing name,
so the claim promises `PreviousFork` returns phase0; the code instead
fails with "no previous fork", because the fold seeds its running maximum
at epoch 0 and only accepts strictly greater epochs. -/
theorem PreviousFork_counterexample :
    ForkEpochs.PreviousFork prevCounterexampleForks 5
        = Except.error "no previous fork"
    ∧ ForkEpochs.CurrentFork prevCounterexampleForks 5
        = Except.ok ⟨5, "", DataVersion.altair⟩
    ∧ (⟨0, "", DataVersion.phase0⟩ : ForkEpoch) ∈ ForkEpochs.Active prevCounterexampleForks 5
    ∧ DataVersion.phase0 ≠ DataVersion.altair :=
  ⟨rfl, rfl, by decide, by decide⟩

/-- C7 amended: for a list with more than one entry, `PreviousFork e`
returns the active fork of greatest epoch among those whose name differs
from the current fork's name and whose epoch is positive (failing when
every differing-name active fork activates at epoch 0); a single-fork
list returns exactly what `CurrentFork` returns. -/
theorem PreviousFork_amended :
    (∀ (f : List ForkEpoch) (e : Nat) (cur : ForkEpoch),
      1 < f.length →
      ForkEpochs.CurrentFork f e = Except.ok cur →
      (∃ g ∈ ForkEpochs.Active f e, g.name ≠ cur.name ∧ 0 < g.epoch) →
      ∃ pk, ForkEpochs.PreviousFork f e = Except.ok pk
        ∧ pk ∈ ForkEpochs.Active f e
        ∧ pk.name ≠ cur.name
        ∧ 0 < pk.epoch
        ∧ (∀ g ∈ ForkEpochs.Active f e, g.name ≠ cur.name → g.epoch ≤ pk.epoch))
    ∧ (∀ (f : List ForkEpoch) (e : Nat), f.length = 1 →
        ForkEpochs.PreviousFork f e = ForkEpochs.CurrentFork f e) := by
  constructor
  · intro f e cur hlen hcur hex
    obtain ⟨g, hgmem, hgname, hgpos⟩ := hex
    have hgact : ForkEpoch.Active g e = true := active_of_mem_Active f e g hgmem
    have hPF : ForkEpochs.PreviousFork f e
        = (if ((ForkEpochs.Active f e).foldl (prevStep e cur.name) (false, forkSeed)).1
            then Except.ok
              ((ForkEpochs.Active f e).foldl (prevStep e cur.name) (false, forkSeed)).2
            else Except.error "no previous fork") := by
      unfold ForkEpochs.PreviousFork
      rw [if_neg (by omega : ¬ f.length = 1), hcur]
    have hp := prevFold_props e cur.name (ForkEpochs.Active f e) false forkSeed
    have hrpos : 0 <
        ((ForkEpochs.Active f e).foldl (prevStep e cur.name) (false, forkSeed)).2.epoch :=
      lt_of_lt_of_le hgpos (hp.2.2 g hgmem hgact hgname)
    rcases hp.1 with heq | ⟨hflag, hmem, _, hname, _⟩
    · rw [heq] at hrpos
      exact absurd hrpos (by simp [forkSeed])
    · refine ⟨_, ?_, hmem, hname, hrpos, ?_⟩
      · rw [hPF, if_pos hflag]
      · intro g' hg' hn'
        exact hp.2.2 g' hg' (active_of_mem_Active f e g' hg') hn'
  · intro f e h1
    unfold ForkEpochs.PreviousFork
    rw [if_pos h1]

/-- C7 witness: the amended statement instantiated on
`[(phase0, 0), (altair, 5), (bellatrix, 9)]` at epoch 100, where the
previous fork is altair. -/
theorem PreviousFork_amended_witness :
    ∃ pk, ForkEpochs.PreviousFork prevWitnessForks 100 = Except.ok pk
      ∧ pk ∈ ForkEpochs.Active prevWitnessForks 100
      ∧ pk.name ≠ DataVersion.bellatrix
      ∧ 0 < pk.epoch
      ∧ (∀ g ∈ ForkEpochs.Active prevWitnessForks 100,
          g.name ≠ DataVersion.bellatrix → g.epoch ≤ pk.epoch) :=
  PreviousFork_amended.1 prevWitnessForks 100 ⟨9, "", DataVersion.bellatrix⟩
    (by decide) rfl (by decide)

/-! ## Helper lemmas: blob schedule -/

lemma blob_find_first (e : Nat) :
    ∀ (l : List BlobScheduleEntry), List.Sorted blobDesc l →
    ∀ (en : BlobScheduleEntry),
    l.find? (fun x => decide (e ≥ x.epoch)) = some en →
    en ∈ l ∧ en.epoch ≤ e ∧ ∀ g ∈ l, g.epoch ≤ e → g.epoch ≤ en.epoch := by
  intro l
  induction l with
  | nil => intro _ en hf; simp at hf
  | cons h t ih =>
    intro hs en hf
    obtain ⟨hh, hts⟩ := List.sorted_cons.mp hs
    by_cases hc : h.epoch ≤ e
    · rw [List.find?_cons_of_pos _ (by simpa using hc)] at hf
      obtain rfl : h = en := by simpa using hf
      refine ⟨List.mem_cons_self h t, hc, ?_⟩
      intro g hg _
      rcases List.mem_cons.mp hg with rfl | hgt
      · exact le_refl _
      · exact hh g hgt
    · rw [List.find?_cons_of_neg _ (by simpa using hc)] at hf
      obtain ⟨hmem, hle, hmax⟩ := ih hts en hf
      refine ⟨List.mem_cons_of_mem h hmem, hle, ?_⟩
      intro g hg hge
      rcases List.mem_cons.mp hg with rfl | hgt
      · exact absurd hge hc
      · exact hmax g hgt hge

lemma blobMinStep_le_left (m0 : Nat) (h : BlobScheduleEntry) :
    blobMinStep m0 h ≤ m0 := by
  unfold blobMinStep; split <;> omega

lemma blobMinStep_le_entry (m0 : Nat) (h : BlobScheduleEntry) :
    blobMinStep m0 h ≤ h.maxBlobsPerBlock := by
  unfold blobMinStep; split <;> omega

lemma blob_foldl_min (l : List BlobScheduleEntry) (m0 : Nat) :
    (l.foldl blobMinStep m0 = m0
      ∨ ∃ en ∈ l, l.foldl blobMinStep m0 = en.maxBlobsPerBlock)
    ∧ l.foldl blobMinStep m0 ≤ m0
    ∧ ∀ g ∈ l, l.foldl blobMinStep m0 ≤ g.maxBlobsPerBlock := by
  induction l generalizing m0 with
  | nil => simp
  | cons h t ih =>
    have hfold : (h :: t).foldl blobMinStep m0 = t.foldl blobMinStep (blobMinStep m0 h) := by
      simp [List.foldl_cons]
    obtain ⟨iA, iB, iC⟩ := ih (blobMinStep m0 h)
    rw [hfold]
    refine ⟨?_, le_trans iB (blobMinStep_le_left m0 h), ?_⟩
    · rcases iA with heq | ⟨en, hen, heq⟩
      · by_cases hc : h.maxBlobsPerBlock < m0
        · refine Or.inr ⟨h, List.mem_cons_self h t, ?_⟩
          rw [heq]; unfold blobMinStep; rw [if_pos hc]
        · refine Or.inl ?_
          rw [heq]; unfold blobMinStep; rw [if_neg hc]
      · exact Or.inr ⟨en, List.mem_cons_of_mem h hen, heq⟩
    · intro g hg
      rcases List.mem_cons.mp hg with rfl | hgt
      · exact le_trans iB (blobMinStep_le_entry m0 g)
      · exact iC g hgt

/-! ## C6 -/

/-- C6: `GetMaxBlobsPerBlock` returns the value of a greatest-epoch entry
whose epoch is at most the queried epoch; when every entry lies strictly
in the future it returns the minimum `MaxBlobsPerBlock` across all
entries; the empty schedule yields 0; and the scenario schedule queried
at epoch 1300 yields 9. -/
theorem GetMaxBlobsPerBlock_spec :
    (∀ (bs : List BlobScheduleEntry) (e : Nat),
      (∃ en ∈ bs, en.epoch ≤ e) →
      ∃ en ∈ bs, en.epoch ≤ e ∧ GetMaxBlobsPerBlock bs e = en.maxBlobsPerBlock
        ∧ ∀ g ∈ bs, g.epoch ≤ e → g.epoch ≤ en.epoch)
    ∧ (∀ (bs : List BlobScheduleEntry) (e : Nat),
      bs ≠ [] → (∀ en ∈ bs, e < en.epoch) →
      ∃ en ∈ bs, GetMaxBlobsPerBlock bs e = en.maxBlobsPerBlock
        ∧ ∀ g ∈ bs, en.maxBlobsPerBlock ≤ g.maxBlobsPerBlock)
    ∧ (∀ e, GetMaxBlobsPerBlock [] e = 0)
    ∧ GetMaxBlobsPerBlock exampleBlobSchedule 1300 = 9 := by
  refine ⟨?_, ?_, fun e => rfl, rfl⟩
  · intro bs e hex
    obtain ⟨en0, hen0, hle0⟩ := hex
    have hbne : bs.isEmpty = false := by
      cases bs with
      | nil => simp at hen0
      | cons a l => rfl
    cases hfind : (List.insertionSort blobDesc bs).find?
        (fun entry => decide (e ≥ entry.epoch)) with
    | none =>
      exfalso
      have hmem : en0 ∈ List.insertionSort blobDesc bs := by
        simpa using hen0
      have := List.find?_eq_none.mp hfind en0 hmem
      simp at this
      omega
    | some en =>
      obtain ⟨hmem, hle, hmax⟩ :=
        blob_find_first e (List.insertionSort blobDesc bs)
          (List.sorted_insertionSort blobDesc bs) en hfind
      refine ⟨en, by simpa using hmem, hle, ?_, ?_⟩
      · simp only [GetMaxBlobsPerBlock, hbne, Bool.false_eq_true, if_false, hfind]
      · intro g hg hge
        exact hmax g (by simpa using hg) hge
  · intro bs e hbne hall
    have hbe : bs.isEmpty = false := by
      cases bs with
      | nil => exact absurd rfl hbne
      | cons a l => rfl
    have hfind : (List.insertionSort blobDesc bs).find?
        (fun entry => decide (e ≥ entry.epoch)) = none := by
      rw [List.find?_eq_none]
      intro x hx
      have := hall x (by simpa using hx)
      simp
      omega
    obtain ⟨x0, hx0⟩ : ∃ x, x ∈ bs := by
      cases bs with
      | nil => exact absurd rfl hbne
      | cons a l => exact ⟨a, List.mem_cons_self a l⟩
    have hsne : List.insertionSort blobDesc bs ≠ [] :=
      List.ne_nil_of_mem (by simpa using hx0)
    obtain ⟨h0, t0, hseq⟩ := List.exists_cons_of_ne_nil hsne
    obtain ⟨fA, fB, fC⟩ :=
      blob_foldl_min (List.insertionSort blobDesc bs)
        ((List.insertionSort blobDesc bs).headD ⟨0, 0⟩).maxBlobsPerBlock
    have hres : GetMaxBlobsPerBlock bs e
        = (List.insertionSort blobDesc bs).foldl blobMinStep
            (((List.insertionSort blobDesc bs).headD ⟨0, 0⟩).maxBlobsPerBlock) := by
      simp only [GetMaxBlobsPerBlock, hbe, Bool.false_eq_true, if_false, hfind]
    rcases fA with heq | ⟨en, hen, heq⟩
    · have hh0 : (List.insertionSort blobDesc bs).headD ⟨0, 0⟩ = h0 := by
        rw [hseq]; rfl
      refine ⟨h0, ?_, ?_, ?_⟩
      · have : h0 ∈ List.insertionSort blobDesc bs := by
          rw [hseq]; exact List.mem_cons_self h0 t0
        simpa using this
      · rw [hres, heq, hh0]
      · intro g hg
        have hfc := fC g (by simpa using hg)
        rw [heq, hh0] at hfc
        exact hfc
    · refine ⟨en, by simpa using hen, by rw [hres, heq], ?_⟩
      intro g hg
      have := fC g (by simpa using hg)
      rw [← heq]
      exact this

/-- C6 witness: the greatest-epoch branch instantiated on the scenario
schedule at epoch 1300. -/
theorem GetMaxBlobsPerBlock_spec_witness :
    ∃ en ∈ exampleBlobSchedule, en.epoch ≤ 1300
      ∧ GetMaxBlobsPerBlock exampleBlobSchedule 1300 = en.maxBlobsPerBlock
      ∧ ∀ g ∈ exampleBlobSchedule, g.epoch ≤ 1300 → g.epoch ≤ en.epoch :=
  GetMaxBlobsPerBlock_spec.1 exampleBlobSchedule 1300 (by decide)

/-! ## C10 -/

/-- C10: the call leaves the receiver schedule untouched — the sort acts
on a private copy — while returning the same value as
`GetMaxBlobsPerBlock`. -/
theorem GetMaxBlobsPerBlock_frame (bs : List BlobScheduleEntry) (e : Nat) :
    (GetMaxBlobsPerBlockCall bs e).2 = bs
    ∧ (GetMaxBlobsPerBlockCall bs e).1 = GetMaxBlobsPerBlock bs e := by
  by_cases hb : bs.isEmpty = true
  · simp [GetMaxBlobsPerBlockCall, GetMaxBlobsPerBlock, hb]
  · cases hfind : (List.insertionSort blobDesc bs).find?
        (fun entry => decide (e ≥ entry.epoch)) with
    | none => simp [GetMaxBlobsPerBlockCall, GetMaxBlobsPerBlock, hb, hfind]
    | some en => simp [GetMaxBlobsPerBlockCall, GetMaxBlobsPerBlock, hb, hfind]

/-! ## C2 -/

/-- C2 counterexample: with an empty cache, the first `FetchFinality("head")`
call already publishes `finality_checkpoint_updated` (a nil cache counts as
changed), so the scenario's two calls with differing finalized checkpoints
publish two events in total, not one. -/
theorem FetchFinality_counterexample :
    (runFinalityCalls none [("head", finalityA)]).2.length = 1
    ∧ (runFinalityCalls none [("head", finalityA), ("head", finalityB)]).2.length = 2
    ∧ ¬ (runFinalityCalls none [("head", finalityA), ("head", finalityB)]).2.length = 1 :=
  ⟨rfl, rfl, by decide⟩

/-- C2 amended: two successive `FetchFinality("head")` calls from an empty
cache whose answers differ publish exactly two `finality_checkpoint_updated`
events — the first call populates the cache and publishes (nil cache counts
as changed), and every later call publishes exactly when some checkpoint
differs from the cached value in epoch or root; non-head calls leave the
cache alone and publish nothing. -/
theorem FetchFinality_amended :
    (∀ f1 f2 : Finality, finalityDiffers f1 f2 = true →
      (runFinalityCalls none [("head", f1), ("head", f2)]).2.length = 2)
    ∧ (∀ f1 : Finality, FetchFinality none "head" f1 = (some f1, [f1]))
    ∧ (∀ c g : Finality, FetchFinality (some c) "head" g
        = (some g, if finalityDiffers c g = true then [g] else []))
    ∧ (∀ (cache : Option Finality) (s : String) (g : Finality), ¬ s = "head" →
        FetchFinality cache s g = (cache, [])) := by
  refine ⟨?_, fun f1 => rfl, fun c g => rfl, ?_⟩
  · intro f1 f2 hdiff
    simp [runFinalityCalls, FetchFinality, hdiff]
  · intro cache s g hs
    unfold FetchFinality
    rw [if_neg hs]

/-- C2 witness: the amended two-call count instantiated on the scenario's
checkpoints `(100, 0xAA)` and `(101, 0xBB)`. -/
theorem FetchFinality_amended_witness :
    (runFinalityCalls none [("head", finalityA), ("head", finalityB)]).2.length = 2 :=
  FetchFinality_amended.1 finalityA finalityB (by decide)

/-! ## C8 -/

/-- C8 counterexample: on a fresh node the `NodeVersion()` getter returns
the zero-value string with a nil error instead of failing with an
unavailable error, unlike `Spec()`. -/
theorem NodeVersion_getter_counterexample :
    Node.NodeVersion freshNode = Except.ok ""
    ∧ Node.Spec freshNode = Except.error "spec is not available"
    ∧ freshNode.nodeVersion = "" :=
  ⟨rfl, rfl, rfl⟩

/-- C8 amended: `Spec`, `SyncState` and `Finality` fail with an unavailable
error exactly when their cache slot is unpopulated and return the cached
value otherwise; `Genesis` returns the raw (possibly nil) pointer without
an error; and `NodeVersion` likewise returns the raw cached string (empty
when never populated) without an error. -/
theorem cached_getters_amended :
    (∀ n : NodeState,
      (n.spec = none → Node.Spec n = Except.error "spec is not available")
      ∧ ∀ s, n.spec = some s → Node.Spec n = Except.ok s)
    ∧ (∀ n : NodeState,
      (n.syncState = none → Node.SyncState n = Except.error "sync state not available")
      ∧ ∀ s, n.syncState = some s → Node.SyncState n = Except.ok s)
    ∧ (∀ n : NodeState,
      (n.finality = none → Node.Finality n = Except.error "finality not available")
      ∧ ∀ s, n.finality = some s → Node.Finality n = Except.ok s)
    ∧ (∀ n : NodeState, Node.Genesis n = Except.ok n.genesis)
    ∧ (∀ n : NodeState, Node.NodeVersion n = Except.ok n.nodeVersion) := by
  refine ⟨fun n => ⟨fun h => ?_, fun s h => ?_⟩,
    fun n => ⟨fun h => ?_, fun s h => ?_⟩,
    fun n => ⟨fun h => ?_, fun s h => ?_⟩,
    fun n => rfl, fun n => rfl⟩ <;>
    simp [Node.Spec, Node.SyncState, Node.Finality, h]

/-- C8 witness: the amended getter contract instantiated on a fresh node. -/
theorem cached_getters_amended_witness :
    Node.Spec freshNode = Except.error "spec is not available"
    ∧ Node.NodeVersion freshNode = Except.ok "" :=
  ⟨(cached_getters_amended.1 freshNode).1 rfl,
    cached_getters_amended.2.2.2.2 freshNode⟩

/-! ## C1 -/

/-- C1: with empty-slot detection on and the node not syncing, a wall-clock
change to slot 42 whose block-41 lookup is answered by a typed HTTP 404
publishes NO `slot_empty` event: `getBlock` translates the typed 404 into
a nil block with a nil error, so the reactor's error branch — the only
place `slot_empty` is published, guarded by a "404" substring test on the
error text — never runs.  The third conjunct shows the event does fire
when the 404 arrives as an untyped error, which is what the claim
describes. -/
theorem emptySlot_404_no_event :
    getBlock (BlockRsp.apiError 404 "GET failed with status 404: not found") = Except.ok none
    ∧ onSlotChanged detectingOptions false 42
        (fun _ => BlockRsp.apiError 404 "GET failed with status 404: not found") = []
    ∧ onSlotChanged detectingOptions false 42
        (fun _ => BlockRsp.otherError "GET failed with status 404: not found")
      = [⟨42⟩] :=
  ⟨rfl, rfl, rfl⟩

/-! ## C9 -/

/-- C9: while the beacon-subscription feature is disabled or the topics
list is empty, no tick of the ensurer loop ever invokes
`subscribeToBeaconEvents`, regardless of how many 2-second ticks elapse,
whether the client is present, or how attempts would fare. -/
theorem ensure_disabled_no_subscribe (o : Options) (clientPresent : Bool)
    (subOk : Nat → Bool) (n : Nat)
    (h : o.beaconSubscription.enabled = false ∨ o.beaconSubscription.topics = []) :
    (ensureRun o clientPresent subOk n).1 = [] := by
  have htick : tickAttemptsSubscribe o clientPresent = false := by
    rcases h with he | ht
    · simp [tickAttemptsSubscribe, he]
    · simp [tickAttemptsSubscribe, ht]
  induction n with
  | zero => rfl
  | succ k ih =>
    simp only [ensureRun]
    by_cases hr : (ensureRun o clientPresent subOk k).2 = true
    · simp [hr, ih]
    · simp [hr, htick, ih]

/-- C9 witness: five ticks with topics configured but the feature disabled
attempt no subscription. -/
theorem ensure_disabled_no_subscribe_witness :
    (ensureRun disabledOptions true (fun _ => true) 5).1 = [] :=
  ensure_disabled_no_subscribe disabledOptions true (fun _ => true) 5 (Or.inl rfl)
